import Mathlib

/-!
Shallow embedding of the ring-hash load balancer in
`source/common/upstream/ring_hash_lb.cc`: ring construction
(`RingHashLoadBalancer::Ring::Ring`), the ketama lookup loop
(`RingHashLoadBalancer::Ring::chooseHost`), the refresh/panic policy
(`RingHashLoadBalancer::refresh`), and a small interleaving model of the
factory's publication of the `(current_ring_, global_panic_)` pair.
-/

namespace RingHashLb

/-- A host is identified by its stable address string
(`host->address()->asString()`), the only attribute of a host the ring
code reads. -/
abbrev Host := String

/-- One `RingEntry`: a 64-bit hash value paired with a reference to the
host it was generated from. -/
structure RingEntry where
  hash : Nat
  host : Host
deriving DecidableEq, Repr

instance : Inhabited RingEntry := ⟨0, ""⟩

/-- Hash of the ring entry at index `i` (callers only use in-bounds
indices, mirroring `ring_[i].hash_`). -/
def hashAt (ring : List RingEntry) (i : Nat) : Nat := (ring.getD i default).hash

/-- Host of the ring entry at index `i` (mirroring `ring_[i].host_`). -/
def hostAt (ring : List RingEntry) (i : Nat) : Host := (ring.getD i default).host

/-- Signed midpoint `(lowp + highp) / 2` computed with C-style
truncating signed 64-bit division, as in the source loop. -/
def midpOf (lowp highp : Int) : Int := Int.tdiv (lowp + highp) 2

/-- The value `midval1` of the loop: hash of the entry preceding `midp`,
or `0` when `midp == 0`. -/
def midval1Of (ring : List RingEntry) (midp : Int) : Nat :=
  if midp = 0 then 0 else hashAt ring (midp.toNat - 1)

/-- Result of one iteration of the search loop in `Ring::chooseHost`:
either the loop returns a host, or it continues with updated bounds. -/
inductive KetamaStep where
  | done (host : Host)
  | cont (lowp highp : Int)
deriving DecidableEq, Repr

/-- One iteration of the `while (true)` loop of `Ring::chooseHost`
(lines 73-96): compute `midp`; if `midp == ring_.size()` return
`ring_[0].host_`; if the key falls in `(midval1, midval]` return
`ring_[midp].host_`; otherwise move `lowp` or `highp` past `midp` and
return `ring_[0].host_` as soon as `lowp > highp`. -/
def ketamaStep (ring : List RingEntry) (h : Nat) (lowp highp : Int) : KetamaStep :=
  if midpOf lowp highp = (ring.length : Int) then .done (hostAt ring 0)
  else if h ≤ hashAt ring (midpOf lowp highp).toNat ∧
      midval1Of ring (midpOf lowp highp) < h then
    .done (hostAt ring (midpOf lowp highp).toNat)
  else if hashAt ring (midpOf lowp highp).toNat < h then
    if midpOf lowp highp + 1 > highp then .done (hostAt ring 0)
    else .cont (midpOf lowp highp + 1) highp
  else
    if lowp > midpOf lowp highp - 1 then .done (hostAt ring 0)
    else .cont lowp (midpOf lowp highp - 1)

/-- The truncating midpoint is within one of the exact half of
`lowp + highp`, for all signs of the operands. -/
theorem midpOf_near (lowp highp : Int) :
    lowp + highp - 1 ≤ 2 * midpOf lowp highp ∧
      2 * midpOf lowp highp ≤ lowp + highp + 1 := by
  unfold midpOf
  rcases le_or_lt 0 (lowp + highp) with hs | hs
  · rw [Int.tdiv_eq_ediv hs (by norm_num)]
    omega
  · rw [show Int.tdiv (lowp + highp) 2 = -(Int.tdiv (-(lowp + highp)) 2) by
        rw [← Int.neg_tdiv, neg_neg],
      Int.tdiv_eq_ediv (by omega) (by norm_num)]
    omega

/-- On nonnegative sums (the only reachable states of the loop) the
truncating midpoint agrees with Euclidean division. -/
theorem midpOf_eq_ediv (lowp highp : Int) (hs : 0 ≤ lowp + highp) :
    midpOf lowp highp = (lowp + highp) / 2 :=
  Int.tdiv_eq_ediv hs (by norm_num)

/-- Whenever an iteration of the loop continues instead of returning, the
interval `[lowp, highp]` strictly shrinks. -/
theorem ketamaStep_shrink_aux {ring : List RingEntry} {h : Nat}
    {lowp highp l2 h2 : Int}
    (hstep : ketamaStep ring h lowp highp = .cont l2 h2) :
    (h2 - l2).toNat < (highp - lowp).toNat := by
  have hnear := midpOf_near lowp highp
  unfold ketamaStep at hstep
  split_ifs at hstep
  all_goals cases hstep
  all_goals omega

/-- The `while (true)` loop of `Ring::chooseHost`, as iteration of
`ketamaStep` from the current bounds. -/
def ketamaRun (ring : List RingEntry) (h : Nat) (lowp highp : Int) : Host :=
  match hstep : ketamaStep ring h lowp highp with
  | .done host => host
  | .cont l2 h2 => ketamaRun ring h l2 h2
termination_by (highp - lowp).toNat
decreasing_by exact ketamaStep_shrink_aux hstep

/-- Embedding of `Ring::chooseHost` (lines 52-97): an empty ring yields no host;
otherwise the effective key is the context hash when present and the
random generator's value otherwise, and the ketama search runs with
`lowp = 0`, `highp = ring_.size()`. -/
def chooseHost (ring : List RingEntry) (key : Option Nat) (rnd : Nat) : Option Host :=
  if ring.isEmpty then none
  else
    let h := match key with
      | some k => k
      | none => rnd
    some (ketamaRun ring h 0 (ring.length : Int))

/-- The hash key for `(host, replica i)`: the address string, a `'_'`
separator byte, then the decimal digits of `i` (memcpy, the `'_'` store,
and `StringUtil::itoa` in lines 151-156). -/
def hashKey (address : String) (i : Nat) : String := address ++ "_" ++ toString i

/-- The `hashes_per_host` computation of `Ring::Ring` (lines 118-124):
start from 1; when the host count is below the minimum ring size take the
rounded-up quotient. -/
def hashesPerHost (minRingSize hostCount : Nat) : Nat :=
  if hostCount < minRingSize then
    minRingSize / hostCount + (if minRingSize % hostCount ≠ 0 then 1 else 0)
  else 1

/-- The unsorted entry list built by the nested loops of `Ring::Ring`
(lines 136-165): for each host in input order and each replica index
below `hashes_per_host`, one entry hashing the key for that pair.
`hashFn` abstracts the configured hash function (`std::hash` or
`xxHash64`, both external) applied to the key bytes. -/
def rawEntries (hashFn : String → Nat) (hph : Nat) (hosts : List Host) : List RingEntry :=
  hosts.flatMap fun host => (List.range hph).map fun i => ⟨hashFn (hashKey host i), host⟩

/-- The comparator of the final `std::sort` (lines 167-169): ascending by
hash. -/
def entryLE (a b : RingEntry) : Prop := a.hash ≤ b.hash

instance : DecidableRel entryLE := fun a b => inferInstanceAs (Decidable (a.hash ≤ b.hash))

instance : IsTotal RingEntry entryLE := ⟨fun a b => Nat.le_total a.hash b.hash⟩

instance : IsTrans RingEntry entryLE := ⟨fun _ _ _ => Nat.le_trans⟩

/-- Embedding of `Ring::Ring` (lines 99-175): empty host list yields an empty ring;
otherwise generate the entries and sort ascending by hash. (Sorting is
embedded as insertion sort: the source's `std::sort` guarantees exactly a
permutation sorted by the comparator.) -/
def buildRing (hashFn : String → Nat) (minRingSize : Nat) (hosts : List Host) : List RingEntry :=
  if hosts.isEmpty then []
  else List.insertionSort entryLE (rawEntries hashFn (hashesPerHost minRingSize hosts.length) hosts)

/-- Sortedness invariant of a constructed ring. -/
def RingSorted (ring : List RingEntry) : Prop := List.Sorted entryLE ring

/-- Index of the first ring entry whose hash is at or above the key;
equals `ring.length` when every entry hash is below the key. -/
def ansIdx (ring : List RingEntry) (h : Nat) : Nat :=
  ring.findIdx fun e => h ≤ e.hash

/-- Specification-side lookup, phrased exactly as the spec sentence: the
host of the first ring entry (in ascending hash order) whose hash is
greater than or equal to the key; when the key is strictly greater than
every entry's hash, the host at ring index 0. -/
def chooseHostSpec (ring : List RingEntry) (h : Nat) : Option Host :=
  match ring.find? fun e => h ≤ e.hash with
  | some e => some e.host
  | none => ring.head?.map RingEntry.host

/-- The host set consumed by `refresh()`: the full host list and the
healthy subset, as provided by `chooseHostSet()`. -/
structure HostSet where
  hosts : List Host
  healthyHosts : List Host

/-- Embedding of `RingHashLoadBalancer::refresh()` (lines 177-193): evaluate the
external panic predicate `isGlobalPanic` once; in panic build the ring
over all hosts and publish the flag `true`, otherwise build it over the
healthy subset and publish `false`. -/
def refresh (isGlobalPanic : HostSet → Bool) (hashFn : String → Nat)
    (minRingSize : Nat) (hs : HostSet) : List RingEntry × Bool :=
  if isGlobalPanic hs then (buildRing hashFn minRingSize hs.hosts, true)
  else (buildRing hashFn minRingSize hs.healthyHosts, false)

/-- The scratch-buffer size allocated for one host's hash keys
(line 145): `std::min(128UL, address_string.size() + 1 + 32)`. -/
def neededSize (addrLen : Nat) : Nat := min 128 (addrLen + 1 + 32)

/-- The first-match index never exceeds the ring length. -/
theorem ansIdx_le_length (ring : List RingEntry) (h : Nat) :
    ansIdx ring h ≤ ring.length :=
  List.findIdx_le_length _

/-- When a matching entry exists, the entry at the first-match index has
hash at or above the key. -/
theorem ansIdx_hit (ring : List RingEntry) (h : Nat)
    (hlt : ansIdx ring h < ring.length) : h ≤ hashAt ring (ansIdx ring h) := by
  induction ring with
  | nil => simp at hlt
  | cons e t ih =>
    by_cases he : h ≤ e.hash
    · have h0 : ansIdx (e :: t) h = 0 := by
        simp [ansIdx, List.findIdx_cons, he]
      rw [h0]
      simpa [hashAt] using he
    · have hsucc : ansIdx (e :: t) h = ansIdx t h + 1 := by
        simp [ansIdx, List.findIdx_cons, he]
      rw [hsucc]
      rw [hsucc] at hlt
      simpa [hashAt, List.getD_cons_succ] using ih (by simpa using hlt)

/-- Every entry strictly before the first-match index has hash strictly
below the key. -/
theorem ansIdx_miss (ring : List RingEntry) (h : Nat) (i : Nat)
    (hi : i < ansIdx ring h) : hashAt ring i < h := by
  induction ring generalizing i with
  | nil => simp [ansIdx] at hi
  | cons e t ih =>
    by_cases he : h ≤ e.hash
    · have h0 : ansIdx (e :: t) h = 0 := by
        simp [ansIdx, List.findIdx_cons, he]
      omega
    · have hsucc : ansIdx (e :: t) h = ansIdx t h + 1 := by
        simp [ansIdx, List.findIdx_cons, he]
      rw [hsucc] at hi
      cases i with
      | zero => simpa [hashAt] using Nat.lt_of_not_le he
      | succ j =>
        simpa [hashAt, List.getD_cons_succ] using ih j (by omega)

/-- An in-bounds entry whose hash is at or above the key bounds the
first-match index from above. -/
theorem ansIdx_le_of_hit (ring : List RingEntry) (h : Nat) (i : Nat)
    (hge : h ≤ hashAt ring i) : ansIdx ring h ≤ i := by
  by_contra hc
  push_neg at hc
  exact absurd (ansIdx_miss ring h i hc) (by omega)

/-- In-bounds reads through the total accessor agree with list indexing. -/
theorem hashAt_eq (ring : List RingEntry) (i : Nat) (hi : i < ring.length) :
    hashAt ring i = ring[i].hash := by
  rw [hashAt, List.getD_eq_getElem _ _ hi]

/-- In a sorted ring, hashes are monotone in the index. -/
theorem sorted_hashAt_le (ring : List RingEntry) (hs : RingSorted ring)
    (i j : Nat) (hij : i ≤ j) (hj : j < ring.length) :
    hashAt ring i ≤ hashAt ring j := by
  rcases Nat.eq_or_lt_of_le hij with rfl | hlt
  · exact Nat.le_refl _
  · have hi : i < ring.length := Nat.lt_trans hlt hj
    have hrel := List.Sorted.rel_get_of_lt hs
      (a := ⟨i, hi⟩) (b := ⟨j, hj⟩) (by exact hlt)
    rw [hashAt_eq ring i hi, hashAt_eq ring j hj]
    simpa [entryLE, List.get_eq_getElem] using hrel

/-- The result of `find?` for the hash predicate is the entry at the
first-match index when one exists. -/
theorem find?_hash (ring : List RingEntry) (h : Nat) :
    (ring.find? fun e => h ≤ e.hash) =
      if ansIdx ring h < ring.length then some (ring.getD (ansIdx ring h) default)
      else none := by
  induction ring with
  | nil => simp [ansIdx]
  | cons e t ih =>
    by_cases he : h ≤ e.hash
    · have h0 : ansIdx (e :: t) h = 0 := by
        simp [ansIdx, List.findIdx_cons, he]
      simp [List.find?_cons, he, h0]
    · have hsucc : ansIdx (e :: t) h = ansIdx t h + 1 := by
        simp [ansIdx, List.findIdx_cons, he]
      rw [List.find?_cons_of_neg _ (by simpa using he), ih, hsucc]
      by_cases hlt : ansIdx t h < t.length
      · rw [if_pos hlt, if_pos (by simpa using hlt)]
        simp [List.getD_cons_succ]
      · rw [if_neg hlt, if_neg (by simpa using hlt)]

/-- On a non-empty ring the specification-side lookup picks the entry at
the first-match index, wrapping to index 0 when there is no match. -/
theorem chooseHostSpec_eq (ring : List RingEntry) (h : Nat) (hne : ring ≠ []) :
    chooseHostSpec ring h =
      some (hostAt ring (if ansIdx ring h < ring.length then ansIdx ring h else 0)) := by
  unfold chooseHostSpec
  rw [find?_hash]
  by_cases hlt : ansIdx ring h < ring.length
  · rw [if_pos hlt, if_pos hlt]
    simp [hostAt]
  · rw [if_neg hlt, if_neg hlt]
    cases ring with
    | nil => exact absurd rfl hne
    | cons e t => simp [hostAt]

/-- A returning iteration determines the loop's result. -/
theorem ketamaRun_done (ring : List RingEntry) (h : Nat) (lowp highp : Int)
    (host : Host) (hstep : ketamaStep ring h lowp highp = .done host) :
    ketamaRun ring h lowp highp = host := by
  rw [ketamaRun]
  split
  · rename_i host2 heq
    rw [heq] at hstep
    cases hstep
    rfl
  · rename_i l2 h2 heq
    rw [heq] at hstep
    cases hstep

/-- A continuing iteration reduces the loop to the shrunk interval. -/
theorem ketamaRun_cont (ring : List RingEntry) (h : Nat) (lowp highp l2 h2 : Int)
    (hstep : ketamaStep ring h lowp highp = .cont l2 h2) :
    ketamaRun ring h lowp highp = ketamaRun ring h l2 h2 := by
  rw [ketamaRun]
  split
  · rename_i host2 heq
    rw [heq] at hstep
    cases hstep
  · rename_i l3 h3 heq
    rw [heq] at hstep
    cases hstep
    rfl

/-- Invariant-based correctness of the ketama loop for a positive key:
while the first-match index stays inside `[lowp, highp]` and the bounds
stay inside `[0, length]`, the loop lands exactly on the first entry
whose hash is at or above the key, wrapping to index 0 when every hash is
below the key. -/
theorem ketamaRun_correct_pos (ring : List RingEntry) (h : Nat)
    (hs : RingSorted ring) (hpos : 0 < h) (lowp highp : Int)
    (hl0 : 0 ≤ lowp) (hla : lowp ≤ (ansIdx ring h : Int))
    (hah : (ansIdx ring h : Int) ≤ highp) (hhl : highp ≤ (ring.length : Int)) :
    ketamaRun ring h lowp highp =
      hostAt ring (if ansIdx ring h < ring.length then ansIdx ring h else 0) := by
  have hle := ansIdx_le_length ring h
  have hm2 : 2 * midpOf lowp highp ≤ lowp + highp ∧
      lowp + highp ≤ 2 * midpOf lowp highp + 1 := by
    rw [midpOf_eq_ediv lowp highp (by omega)]
    omega
  by_cases hc1 : midpOf lowp highp = (ring.length : Int)
  · have hans : ansIdx ring h = ring.length := by omega
    rw [ketamaRun_done ring h lowp highp (hostAt ring 0)
      (by unfold ketamaStep; rw [if_pos hc1])]
    rw [if_neg (by omega)]
  · have hmlt : (midpOf lowp highp).toNat < ring.length := by omega
    by_cases hc2 : h ≤ hashAt ring (midpOf lowp highp).toNat ∧
        midval1Of ring (midpOf lowp highp) < h
    · obtain ⟨hc2a, hc2b⟩ := hc2
      have hans_le : ansIdx ring h ≤ (midpOf lowp highp).toNat :=
        ansIdx_le_of_hit ring h _ hc2a
      have hans_ge : (midpOf lowp highp).toNat ≤ ansIdx ring h := by
        rcases Nat.eq_zero_or_pos (midpOf lowp highp).toNat with h0 | hposN
        · omega
        · have hm0 : ¬ midpOf lowp highp = 0 := by omega
          rw [midval1Of, if_neg hm0] at hc2b
          by_contra hcon
          push_neg at hcon
          have hlt2 : ansIdx ring h < ring.length := by omega
          have hhit := ansIdx_hit ring h hlt2
          have hmono := sorted_hashAt_le ring hs (ansIdx ring h)
            ((midpOf lowp highp).toNat - 1) (by omega) (by omega)
          omega
      have hans : ansIdx ring h = (midpOf lowp highp).toNat :=
        Nat.le_antisymm hans_le hans_ge
      rw [ketamaRun_done ring h lowp highp (hostAt ring (midpOf lowp highp).toNat)
        (by unfold ketamaStep; rw [if_neg hc1, if_pos ⟨hc2a, hc2b⟩])]
      rw [if_pos (by omega), hans]
    · by_cases hc3 : hashAt ring (midpOf lowp highp).toNat < h
      · have hans_gt : (midpOf lowp highp).toNat < ansIdx ring h := by
          by_contra hcon
          push_neg at hcon
          have hlt2 : ansIdx ring h < ring.length := by omega
          have hhit := ansIdx_hit ring h hlt2
          have hmono := sorted_hashAt_le ring hs (ansIdx ring h)
            ((midpOf lowp highp).toNat) hcon hmlt
          omega
        have hc4 : ¬ midpOf lowp highp + 1 > highp := by omega
        rw [ketamaRun_cont ring h lowp highp (midpOf lowp highp + 1) highp
          (by unfold ketamaStep; rw [if_neg hc1, if_neg hc2, if_pos hc3, if_neg hc4])]
        exact ketamaRun_correct_pos ring h hs hpos (midpOf lowp highp + 1) highp
          (by omega) (by omega) hah hhl
      · have hc2b : h ≤ midval1Of ring (midpOf lowp highp) := by
          rcases Nat.lt_or_ge (midval1Of ring (midpOf lowp highp)) h with hx | hx
          · exact absurd ⟨by omega, hx⟩ hc2
          · exact hx
        have hm0 : ¬ midpOf lowp highp = 0 := by
          intro h0
          rw [midval1Of, if_pos h0] at hc2b
          omega
        rw [midval1Of, if_neg hm0] at hc2b
        have hansle : ansIdx ring h ≤ (midpOf lowp highp).toNat - 1 :=
          ansIdx_le_of_hit ring h _ hc2b
        have hc5 : ¬ lowp > midpOf lowp highp - 1 := by omega
        rw [ketamaRun_cont ring h lowp highp lowp (midpOf lowp highp - 1)
          (by unfold ketamaStep; rw [if_neg hc1, if_neg hc2, if_neg hc3, if_neg hc5])]
        exact ketamaRun_correct_pos ring h hs hpos lowp (midpOf lowp highp - 1)
          hl0 hla (by omega) (by omega)
termination_by (highp - lowp).toNat
decreasing_by
  · omega
  · omega

/-- For key 0 the loop always halves down to the leftmost entry and
returns the host at index 0 (which is also the first entry with hash at
or above 0). -/
theorem ketamaRun_zero (ring : List RingEntry) (highp : Int)
    (hne : ring ≠ []) (hh0 : 0 ≤ highp) (hhl : highp ≤ (ring.length : Int)) :
    ketamaRun ring 0 0 highp = hostAt ring 0 := by
  have hlen : 0 < ring.length := List.length_pos.mpr hne
  have hm2 : 2 * midpOf 0 highp ≤ 0 + highp ∧
      0 + highp ≤ 2 * midpOf 0 highp + 1 := by
    rw [midpOf_eq_ediv 0 highp (by omega)]
    omega
  have hc1 : ¬ midpOf 0 highp = (ring.length : Int) := by omega
  have hc2 : ¬ (0 ≤ hashAt ring (midpOf 0 highp).toNat ∧
      midval1Of ring (midpOf 0 highp) < 0) := by
    simp
  have hc3 : ¬ hashAt ring (midpOf 0 highp).toNat < 0 := by simp
  by_cases hc5 : (0 : Int) > midpOf 0 highp - 1
  · exact ketamaRun_done ring 0 0 highp (hostAt ring 0)
      (by unfold ketamaStep; rw [if_neg hc1, if_neg hc2, if_neg hc3, if_pos hc5])
  · rw [ketamaRun_cont ring 0 0 highp 0 (midpOf 0 highp - 1)
      (by unfold ketamaStep; rw [if_neg hc1, if_neg hc2, if_neg hc3, if_neg hc5])]
    exact ketamaRun_zero ring (midpOf 0 highp - 1) hne (by omega) (by omega)
termination_by highp.toNat
decreasing_by omega

/-- Key 0 matches the very first entry, since every hash is at or above 0. -/
theorem ansIdx_zero (ring : List RingEntry) (hne : ring ≠ []) :
    ansIdx ring 0 = 0 := by
  cases ring with
  | nil => exact absurd rfl hne
  | cons e t => simp [ansIdx, List.findIdx_cons]

/-- C1: on every non-empty sorted ring and every effective 64-bit key,
`Ring::chooseHost` returns the host of the first ring entry (in
ascending hash order) whose hash is greater than or equal to the key,
and wraps to the host at ring index 0 when the key is strictly greater
than every entry's hash — i.e. the ketama loop agrees with the
specification-side lookup `chooseHostSpec`. -/
theorem chooseHost_first_ge (ring : List RingEntry) (k rnd : Nat)
    (hs : RingSorted ring) (hne : ring ≠ []) (hk : k < 2 ^ 64) :
    chooseHost ring (some k) rnd = chooseHostSpec ring k := by
  have hlen : 0 < ring.length := List.length_pos.mpr hne
  have hemp : ring.isEmpty = false := by
    simpa [List.isEmpty_iff] using hne
  rw [chooseHostSpec_eq ring k hne]
  unfold chooseHost
  rw [if_neg (by simp [hemp])]
  show some (ketamaRun ring k 0 (ring.length : Int)) =
    some (hostAt ring (if ansIdx ring k < ring.length then ansIdx ring k else 0))
  congr 1
  rcases Nat.eq_zero_or_pos k with rfl | hpos
  · rw [ketamaRun_zero ring (ring.length : Int) hne (by omega) (by omega)]
    rw [ansIdx_zero ring hne, if_pos hlen]
  · have hle := ansIdx_le_length ring k
    exact ketamaRun_correct_pos ring k hs hpos 0 (ring.length : Int)
      (by omega) (by omega) (by omega) (by omega)

/-- Witness for C1 at a concrete sorted two-entry ring and key 15. -/
theorem chooseHost_first_ge_witness :
    RingSorted [⟨10, "a"⟩, ⟨20, "b"⟩] ∧ ([⟨10, "a"⟩, ⟨20, "b"⟩] : List RingEntry) ≠ [] ∧
      15 < 2 ^ 64 ∧
      chooseHost [⟨10, "a"⟩, ⟨20, "b"⟩] (some 15) 0 = chooseHostSpec [⟨10, "a"⟩, ⟨20, "b"⟩] 15 :=
  ⟨by simp [RingSorted, entryLE], by simp, by norm_num,
    chooseHost_first_ge [⟨10, "a"⟩, ⟨20, "b"⟩] 15 0
      (by simp [RingSorted, entryLE]) (by simp) (by norm_num)⟩

/-- The generation loops emit exactly `hashes_per_host` entries per host
position. -/
theorem rawEntries_length (hashFn : String → Nat) (hph : Nat) (hosts : List Host) :
    (rawEntries hashFn hph hosts).length = hosts.length * hph := by
  induction hosts with
  | nil => simp [rawEntries]
  | cons b t ih =>
    simp only [rawEntries, List.flatMap_cons, List.length_append, List.length_map,
      List.length_range, List.length_cons] at ih ⊢
    rw [ih, Nat.succ_mul]
    omega

/-- The constructed ring is a permutation of the generated entry list. -/
theorem buildRing_perm (hashFn : String → Nat) (S : Nat) (hosts : List Host) :
    (buildRing hashFn S hosts).Perm
      (rawEntries hashFn (hashesPerHost S hosts.length) hosts) := by
  unfold buildRing
  split_ifs with he
  · rw [List.isEmpty_iff.mp he]
    simp [rawEntries]
  · exact List.perm_insertionSort entryLE _

/-- The constructed ring is sorted ascending by hash. -/
theorem buildRing_sorted_aux (hashFn : String → Nat) (S : Nat) (hosts : List Host) :
    RingSorted (buildRing hashFn S hosts) := by
  unfold buildRing
  split_ifs
  · simp [RingSorted]
  · exact List.sorted_insertionSort entryLE _

/-- The source's `hashes_per_host` equals the rounded-up quotient
`ceil(S / host_count)` whenever `S ≥ 1` and there is at least one host. -/
theorem hashesPerHost_eq_ceil (S hc : Nat) (hS : 1 ≤ S) (hhc : 1 ≤ hc) :
    hashesPerHost S hc = (S + hc - 1) / hc := by
  unfold hashesPerHost
  rcases Nat.lt_or_ge hc S with hlt | hge
  · rw [if_pos hlt]
    have hdm := Nat.div_add_mod S hc
    have hmlt : S % hc < hc := Nat.mod_lt _ (by omega)
    rcases Nat.eq_zero_or_pos (S % hc) with hr | hr
    · rw [if_neg (by simp [hr])]
      have h1 : S + hc - 1 = hc * (S / hc) + (hc - 1) := by omega
      have h2 : (S + hc - 1) / hc = S / hc + (hc - 1) / hc := by
        rw [h1, Nat.mul_add_div (by omega)]
      have h3 : (hc - 1) / hc = 0 := Nat.div_eq_of_lt (by omega)
      omega
    · rw [if_pos (by omega)]
      have hms : hc * (S / hc + 1) = hc * (S / hc) + hc := Nat.mul_succ hc (S / hc)
      have h1 : S + hc - 1 = hc * (S / hc + 1) + (S % hc - 1) := by omega
      have h2 : (S + hc - 1) / hc = S / hc + 1 + (S % hc - 1) / hc := by
        rw [h1, Nat.mul_add_div (by omega)]
      have h3 : (S % hc - 1) / hc = 0 := Nat.div_eq_of_lt (by omega)
      omega
  · rw [if_neg (by omega)]
    have h1 : S + hc - 1 = hc * 1 + (S - 1) := by omega
    have h2 : (S + hc - 1) / hc = 1 + (S - 1) / hc := by
      rw [h1, Nat.mul_add_div (by omega)]
    have h3 : (S - 1) / hc = 0 := Nat.div_eq_of_lt (by omega)
    omega

/-- The ring always reaches the requested minimum size. -/
theorem ring_size_ge (S hc : Nat) (hS : 1 ≤ S) (hhc : 1 ≤ hc) :
    S ≤ hc * hashesPerHost S hc := by
  unfold hashesPerHost
  rcases Nat.lt_or_ge hc S with hlt | hge
  · rw [if_pos hlt]
    have hdm := Nat.div_add_mod S hc
    have hmlt : S % hc < hc := Nat.mod_lt _ (by omega)
    rcases Nat.eq_zero_or_pos (S % hc) with hr | hr
    · rw [if_neg (by simp [hr]), Nat.add_zero]
      omega
    · rw [if_pos (by omega)]
      have hms : hc * (S / hc + 1) = hc * (S / hc) + hc := Nat.mul_succ hc (S / hc)
      omega
  · rw [if_neg (by omega), Nat.mul_one]
    omega

/-- Each host position contributes its replicas and nothing else: the
entry count carrying a given host address is its multiplicity in the
input times `hashes_per_host`. -/
theorem rawEntries_countP (hashFn : String → Nat) (hph : Nat) (hosts : List Host)
    (a : Host) :
    (rawEntries hashFn hph hosts).countP (fun e => e.host == a) =
      hosts.count a * hph := by
  induction hosts with
  | nil => simp [rawEntries]
  | cons b t ih =>
    simp only [rawEntries] at ih ⊢
    rw [List.flatMap_cons, List.countP_append, ih, List.countP_map, List.count_cons]
    have hcomp : ((fun e => e.host == a) ∘
        fun i => (⟨hashFn (hashKey b i), b⟩ : RingEntry)) = fun i : Nat => (b == a) := rfl
    rw [hcomp]
    by_cases hba : (b == a) = true
    · rw [if_pos hba, Nat.add_mul, Nat.one_mul]
      simp only [hba, List.countP_true, List.length_range]
      omega
    · rw [if_neg hba, Nat.add_zero]
      have hfalse : (b == a) = false := by
        cases hbb : (b == a) <;> simp_all
      simp only [hfalse, List.countP_false, Function.const]
      omega

/-- C2: for every non-empty host sequence and minimum ring size `S ≥ 1`
the constructed ring has exactly `host_count * ceil(S / host_count)`
entries — hence at least `S` — with every host contributing the same
per-occurrence replica count `hashes_per_host ≥ 1`. -/
theorem buildRing_size (hashFn : String → Nat) (S : Nat) (hosts : List Host)
    (hne : hosts ≠ []) (hS : 1 ≤ S) :
    (buildRing hashFn S hosts).length =
      hosts.length * ((S + hosts.length - 1) / hosts.length) ∧
    S ≤ (buildRing hashFn S hosts).length ∧
    1 ≤ hashesPerHost S hosts.length ∧
    ∀ a ∈ hosts,
      (buildRing hashFn S hosts).countP (fun e => e.host == a) =
        hosts.count a * hashesPerHost S hosts.length := by
  have hhc : 1 ≤ hosts.length := List.length_pos.mpr hne
  have hperm := buildRing_perm hashFn S hosts
  have hlen := hperm.length_eq
  rw [rawEntries_length] at hlen
  refine ⟨?_, ?_, ?_, ?_⟩
  · rw [hlen, hashesPerHost_eq_ceil S hosts.length hS hhc]
  · rw [hlen]
    exact ring_size_ge S hosts.length hS hhc
  · unfold hashesPerHost
    rcases Nat.lt_or_ge hosts.length S with hlt | hge
    · rw [if_pos hlt]
      have hdm := Nat.div_add_mod S hosts.length
      have hmlt : S % hosts.length < hosts.length := Nat.mod_lt _ (by omega)
      rcases Nat.eq_zero_or_pos (S / hosts.length) with h0 | h1
      · have hmz : hosts.length * (S / hosts.length) = 0 := by
          rw [h0, Nat.mul_zero]
        omega
      · omega
    · rw [if_neg (by omega)]
  · intro a _
    rw [hperm.countP_eq, rawEntries_countP]

/-- Witness for C2 with two hosts and minimum ring size 4. -/
theorem buildRing_size_witness :
    (["a", "bb"] : List Host) ≠ [] ∧ 1 ≤ 4 ∧
      ((buildRing String.length 4 ["a", "bb"]).length =
          (["a", "bb"] : List Host).length *
            ((4 + (["a", "bb"] : List Host).length - 1) /
              (["a", "bb"] : List Host).length) ∧
        4 ≤ (buildRing String.length 4 ["a", "bb"]).length ∧
        1 ≤ hashesPerHost 4 (["a", "bb"] : List Host).length ∧
        ∀ a ∈ (["a", "bb"] : List Host),
          (buildRing String.length 4 ["a", "bb"]).countP (fun e => e.host == a) =
            (["a", "bb"] : List Host).count a * hashesPerHost 4 (["a", "bb"] : List Host).length) :=
  ⟨by simp, by norm_num, buildRing_size String.length 4 ["a", "bb"] (by simp) (by norm_num)⟩

/-- C6: every constructed ring is sorted ascending by hash: any earlier
entry's hash is at most any later entry's hash. (The embedding is a pure
value, so a constructed ring is never mutated; a changed host set builds
a fresh ring.) -/
theorem buildRing_sorted (hashFn : String → Nat) (S : Nat) (hosts : List Host)
    (i j : Nat) (hij : i < j) (hj : j < (buildRing hashFn S hosts).length) :
    ((buildRing hashFn S hosts).get ⟨i, Nat.lt_trans hij hj⟩).hash ≤
      ((buildRing hashFn S hosts).get ⟨j, hj⟩).hash := by
  have hs := buildRing_sorted_aux hashFn S hosts
  exact List.Sorted.rel_get_of_lt hs (a := ⟨i, Nat.lt_trans hij hj⟩) (b := ⟨j, hj⟩) hij

/-- Witness for C6 at a concrete two-host ring. -/
theorem buildRing_sorted_witness :
    0 < 1 ∧ 1 < (buildRing String.length 4 ["a", "bb"]).length ∧
      ((buildRing String.length 4 ["a", "bb"]).get ⟨0, by decide⟩).hash ≤
        ((buildRing String.length 4 ["a", "bb"]).get ⟨1, by decide⟩).hash :=
  ⟨by decide, by decide,
    buildRing_sorted String.length 4 ["a", "bb"] 0 1 (by decide) (by decide)⟩

/-- C8: construction is a pure function of the host sequence and
configuration: the result is uniquely determined, and it is the
ascending-by-hash arrangement of the generated multiset of (hash, host)
entries — so two builds from identical inputs agree entrywise. -/
theorem buildRing_pure (hashFn : String → Nat) (S : Nat) (hosts : List Host) :
    buildRing hashFn S hosts = buildRing hashFn S hosts ∧
    (buildRing hashFn S hosts).Perm
      (rawEntries hashFn (hashesPerHost S hosts.length) hosts) ∧
    RingSorted (buildRing hashFn S hosts) :=
  ⟨rfl, buildRing_perm hashFn S hosts, buildRing_sorted_aux hashFn S hosts⟩

/-- C7: an empty host sequence constructs a ring with zero entries, and
chooseHost on that ring returns no host for every key and every random
value, never a fault. -/
theorem empty_hosts_no_host (hashFn : String → Nat) (S : Nat)
    (key : Option Nat) (rnd : Nat) :
    buildRing hashFn S [] = [] ∧ chooseHost (buildRing hashFn S []) key rnd = none :=
  ⟨rfl, rfl⟩

/-- C10: against a fixed ring, chooseHost with a supplied key is
deterministic and independent of the random source: the random value is
only consulted when the key is absent. -/
theorem chooseHost_deterministic (ring : List RingEntry) (k rnd1 rnd2 : Nat) :
    chooseHost ring (some k) rnd1 = chooseHost ring (some k) rnd2 := rfl

/-- C5: refresh evaluates the panic predicate exactly once per refresh:
when it judges the host set in panic, the published pair is the ring
built over all hosts with flag true; otherwise the ring is built over
only the healthy subset with flag false. -/
theorem refresh_panic_policy (isGlobalPanic : HostSet → Bool)
    (hashFn : String → Nat) (S : Nat) (hs : HostSet) :
    refresh isGlobalPanic hashFn S hs =
      (buildRing hashFn S (if isGlobalPanic hs then hs.hosts else hs.healthyHosts),
        isGlobalPanic hs) := by
  unfold refresh
  by_cases hp : isGlobalPanic hs <;> simp [hp]

set_option maxRecDepth 4096 in
/-- C3 evidence: the scratch buffer is sized with
`std::min(128UL, address_string.size() + 1 + 32)`, yet the key written
into it for replica 0 occupies `address_string.size() + 1 + 1` bytes
(memcpy of the address, the separator, one digit). For a 200-byte
address the buffer holds 128 bytes while the memcpy alone writes 200:
the write overruns the allocation. -/
theorem hash_key_buffer_overflow :
    neededSize (String.mk (List.replicate 200 'a')).length = 128 ∧
      neededSize (String.mk (List.replicate 200 'a')).length <
        (String.mk (List.replicate 200 'a')).length ∧
      neededSize (String.mk (List.replicate 200 'a')).length <
        (hashKey (String.mk (List.replicate 200 'a')) 0).length := by
  refine ⟨?_, ?_, ?_⟩ <;> decide

/-- Shared state of `LoadBalancerFactoryImpl`, with the ring and the
panic flag each tagged by the index of the refresh that wrote it. -/
structure PublisherState where
  ring : Nat
  panic : Nat
deriving DecidableEq, Repr

/-- The unsynchronized store `factory_->global_panic_ = ...` that
refresh() performs before taking the write lock (lines 185 and 188). -/
def writePanicUnlocked (n : Nat) (s : PublisherState) : PublisherState :=
  { s with panic := n }

/-- The store `factory_->current_ring_ = new_ring` performed under the
write lock (lines 191-192). -/
def writeRingLocked (n : Nat) (s : PublisherState) : PublisherState :=
  { s with ring := n }

/-- One complete refresh `n` as ordered in the source: the panic flag is
written strictly before the lock is taken and the ring swapped. -/
def refreshSteps (n : Nat) (s : PublisherState) : PublisherState :=
  writeRingLocked n (writePanicUnlocked n s)

/-- What `LoadBalancerFactoryImpl::create()` captures for a new
selector: the ring (copied under the read lock) and the panic flag
(read outside any lock, line 49). -/
def captureSelector (s : PublisherState) : Nat × Nat := (s.ring, s.panic)

/-- C4 evidence: a selector created after refresh 0 completed and after
refresh 1 performed its pre-lock panic write — but before refresh 1's
locked ring write — captures the ring of refresh 0 paired with the panic
flag of refresh 1, a pair that no single refresh published; completed
refreshes do publish matched pairs. -/
theorem selector_pair_torn :
    captureSelector (writePanicUnlocked 1 (refreshSteps 0 ⟨0, 0⟩)) = (0, 1) ∧
      captureSelector (refreshSteps 0 ⟨0, 0⟩) = (0, 0) ∧
      captureSelector (refreshSteps 1 (refreshSteps 0 ⟨0, 0⟩)) = (1, 1) := by
  refine ⟨?_, ?_, ?_⟩ <;> rfl

/-- C9: the search loop terminates on every ring (sorted or not) and
every key: an iteration that does not return strictly shrinks the signed
interval `[lowp, highp]`; an iteration whose midpoint reaches the entry
count returns the host at index 0 at once; and once `lowp` exceeds
`highp` the iteration returns a host at once. -/
theorem ketamaStep_terminates (ring : List RingEntry) (h : Nat) (lowp highp : Int) :
    (∀ l2 h2, ketamaStep ring h lowp highp = .cont l2 h2 →
      (h2 - l2).toNat < (highp - lowp).toNat) ∧
    (midpOf lowp highp = (ring.length : Int) →
      ketamaStep ring h lowp highp = .done (hostAt ring 0)) ∧
    (lowp > highp → ∃ host, ketamaStep ring h lowp highp = .done host) := by
  refine ⟨fun l2 h2 hstep => ketamaStep_shrink_aux hstep, fun hmid => ?_, fun hgt => ?_⟩
  · unfold ketamaStep
    rw [if_pos hmid]
  · have hnear := midpOf_near lowp highp
    unfold ketamaStep
    split_ifs
    · exact ⟨hostAt ring 0, rfl⟩
    · exact ⟨_, rfl⟩
    · exact ⟨hostAt ring 0, rfl⟩
    · omega
    · exact ⟨hostAt ring 0, rfl⟩
    · omega

/-- Witness for C9: a concrete continuing iteration strictly shrinks the
interval. -/
theorem ketamaStep_terminates_witness :
    ((4 : Int) - 3).toNat < ((4 : Int) - 0).toNat :=
  (ketamaStep_terminates [⟨1, "a"⟩, ⟨2, "b"⟩, ⟨3, "c"⟩, ⟨4, "d"⟩] 10 0 4).1 3 4 (by decide)

end RingHashLb
